import Mathlib

/-!
Verification of the dependency-graph engine of the SAM backend
(`backend/app/services/graph_service.py` and the graph routes in
`backend/app/api/v1/routes/graph.py`).

The Python service reads two tables (applications, dependencies) and runs
pure in-memory algorithms over them.  We embed those algorithms shallowly:
the database read becomes a `List` argument, integer ids become `Int`,
nullable columns become `Option`, and Python dictionaries become
association lists (which preserve the insertion order the code relies on).
Python truthiness on an `Optional[int]` column (`if dep.provider_id:`)
is `False` both for `None` and for `0`; the helper `intTruthy` models this
exactly.
-/

namespace OvuSam

/-- One row of the `applications` table, restricted to the columns the graph
service reads.  `type` and `status` are stored as the `.value` string of the
corresponding Python enum. -/
structure Application where
  id : Int
  code : String
  name : String
  display_name : String
  type : String
  status : String
  category : Option String
  icon : Option String
  color : Option String
  frontend_url : Option String
  backend_url : Option String
  description : Option String
  deriving Repr, DecidableEq

/-- One row of the `dependencies` table, restricted to the columns the graph
service reads.  `provider_id` is nullable (null means a dependency on an
external, unmodeled system). -/
structure Dependency where
  id : Int
  consumer_id : Int
  provider_id : Option Int
  name : String
  type : String
  criticality : String
  description : Option String
  deriving Repr, DecidableEq

/-- Python truthiness of an `Optional[int]` value: `None` and `0` are falsy,
every other integer is truthy.  The service guards every edge emission with
`if dep.provider_id:`, which is this test, not a null test. -/
def intTruthy : Option Int → Bool
  | none => false
  | some x => x != 0

/-- Python truthiness of an `Optional[str]` value: `None` and `""` are falsy.
Used by the stats loop `if app.category:`. -/
def strTruthy : Option String → Bool
  | none => false
  | some s => s != ""

/-- `GraphNode` of `app/schemas/graph.py`. -/
structure GraphNode where
  id : Int
  code : String
  name : String
  display_name : String
  type : String
  status : String
  category : Option String
  icon : Option String
  color : Option String
  frontend_url : Option String
  backend_url : Option String
  description : Option String
  dependencies_count : Nat
  dependents_count : Nat
  routes_count : Nat
  deriving Repr, DecidableEq

/-- `GraphEdge` of `app/schemas/graph.py`. -/
structure GraphEdge where
  id : Int
  source : Int
  target : Int
  name : String
  type : String
  criticality : String
  description : Option String
  deriving Repr, DecidableEq

/-- The `stats` dictionary built by `get_full_graph`.  The three `by_*`
Python dicts are modeled as association lists in key-insertion order. -/
structure GraphStats where
  total_nodes : Nat
  total_edges : Nat
  by_type : List (String × Nat)
  by_status : List (String × Nat)
  by_category : List (String × Nat)
  deriving Repr, DecidableEq

/-- `DependencyGraph` of `app/schemas/graph.py`. -/
structure DependencyGraph where
  nodes : List GraphNode
  edges : List GraphEdge
  total_apps : Nat
  total_dependencies : Nat
  stats : GraphStats
  deriving Repr, DecidableEq

/-- `DependencyPath` of `app/schemas/graph.py`.  `length` is set by the
service to `len(path_ids) - 1` where `path_ids` is the id path found by BFS
(not the code list, see `find_path`). -/
structure DependencyPath where
  from_app : String
  to_app : String
  path : List String
  length : Nat
  deriving Repr, DecidableEq

/-- The `dependency_info` dict attached to a child tree node. -/
structure DepInfo where
  name : String
  type : String
  criticality : String
  deriving Repr, DecidableEq

/-- `DependencyTree` of `app/schemas/graph.py` (a self-referencing pydantic
model).  Being self-nested it is an inductive type; accessors are defined
below. -/
inductive DependencyTree where
  | mk : (app_id : Int) → (app_code : String) → (app_name : String) →
      (children : List DependencyTree) → (dependency_info : Option DepInfo) →
      DependencyTree
  deriving Repr

/-- `app_id` accessor. -/
def DependencyTree.app_id : DependencyTree → Int
  | .mk i _ _ _ _ => i

/-- `app_code` accessor. -/
def DependencyTree.app_code : DependencyTree → String
  | .mk _ c _ _ _ => c

/-- `app_name` accessor. -/
def DependencyTree.app_name : DependencyTree → String
  | .mk _ _ n _ _ => n

/-- `children` accessor. -/
def DependencyTree.children : DependencyTree → List DependencyTree
  | .mk _ _ _ cs _ => cs

/-- `dependency_info` accessor. -/
def DependencyTree.dependency_info : DependencyTree → Option DepInfo
  | .mk _ _ _ _ d => d

/-- `child.dependency_info = {...}` mutation of `get_app_dependencies_tree`. -/
def setDepInfo : DependencyTree → DepInfo → DependencyTree
  | .mk i c n cs _, info => .mk i c n cs (some info)

/-! ### Graph Builder (`GraphService.get_full_graph`) -/

/-- `stats["by_x"][key] = stats["by_x"].get(key, 0) + 1` on an ordered dict
modeled as an association list: bump the first binding of `k`, or append a
fresh binding `(k, 1)` (dict insertion order). -/
def bump : List (String × Nat) → String → List (String × Nat)
  | [], k => [(k, 1)]
  | (k', v) :: rest, k => if k' = k then (k', v + 1) :: rest else (k', v) :: bump rest k

/-- Sum of the values of an association list (`sum(d.values())`). -/
def sumVals (l : List (String × Nat)) : Nat :=
  (l.map Prod.snd).sum

/-- One iteration of the `deps_count` loop of `get_full_graph`: for each id
the state holds the pair (required counter, provided counter).  Every record
increments the consumer's required counter; only records with a truthy
`provider_id` increment the provider's provided counter. -/
def depsCountStep (m : Int → Nat × Nat) (dep : Dependency) : Int → Nat × Nat :=
  let m1 : Int → Nat × Nat :=
    fun i => if i = dep.consumer_id then ((m i).1 + 1, (m i).2) else m i
  if intTruthy dep.provider_id then
    match dep.provider_id with
    | some p => fun i => if i = p then ((m1 i).1, (m1 i).2 + 1) else m1 i
    | none => m1
  else m1

/-- See `depsCountStep` for the loop body. -/
def depsCount (deps : List Dependency) : Int → Nat × Nat :=
  deps.foldl depsCountStep (fun _ => (0, 0))

/-- The node built for one application row by `get_full_graph`. -/
def mkNode (deps : List Dependency) (routes_count : Int → Nat) (app : Application) :
    GraphNode :=
  { id := app.id
    code := app.code
    name := app.name
    display_name := app.display_name
    type := app.type
    status := app.status
    category := app.category
    icon := app.icon
    color := app.color
    frontend_url := app.frontend_url
    backend_url := app.backend_url
    description := app.description
    dependencies_count := (depsCount deps app.id).1
    dependents_count := (depsCount deps app.id).2
    routes_count := routes_count app.id }

/-- The edge built for one dependency row with truthy provider. -/
def mkEdge (dep : Dependency) (p : Int) : GraphEdge :=
  { id := dep.id
    source := dep.consumer_id
    target := p
    name := dep.name
    type := dep.type
    criticality := dep.criticality
    description := dep.description }

/-- The edge list of `get_full_graph`: one edge per dependency whose
`provider_id` is truthy (`if dep.provider_id:`), in input order. -/
def buildEdges (deps : List Dependency) : List GraphEdge :=
  deps.filterMap (fun dep =>
    match dep.provider_id with
    | some p => if p != 0 then some (mkEdge dep p) else none
    | none => none)

/-- The `if app.category: by_category[...] += 1` loop body (`app.category`
is truthy when non-null and non-empty). -/
def catStep (m : List (String × Nat)) (app : Application) : List (String × Nat) :=
  if strTruthy app.category then
    match app.category with
    | some c => bump m c
    | none => m
  else m

/-- `GraphService.get_full_graph`.  `routes_count` abstracts the per-app
route-count query (`CountRoutesFor` in the spec). -/
def get_full_graph (apps : List Application) (deps : List Dependency)
    (routes_count : Int → Nat) : DependencyGraph :=
  let nodes := apps.map (mkNode deps routes_count)
  let edges := buildEdges deps
  let by_type := apps.foldl (fun m app => bump m app.type) []
  let by_status := apps.foldl (fun m app => bump m app.status) []
  let by_category := apps.foldl catStep []
  { nodes := nodes
    edges := edges
    total_apps := apps.length
    total_dependencies := deps.length
    stats :=
      { total_nodes := nodes.length
        total_edges := edges.length
        by_type := by_type
        by_status := by_status
        by_category := by_category } }

/-! ### Shared adjacency construction

Both `find_path` and `get_circular_dependencies` build
`graph = defaultdict(list); for dep in deps: if dep.provider_id:
graph[dep.consumer_id].append(dep.provider_id)`.
A `defaultdict` keeps keys in first-touch order and each value list in
append order; we model it as an association list. -/

/-- Append `p` to the (defaultdict) bucket of key `c`, creating the bucket
at the end if `c` is not yet a key. -/
def adjAppend : List (Int × List Int) → Int → Int → List (Int × List Int)
  | [], c, p => [(c, [p])]
  | (k, vs) :: rest, c, p =>
    if k = c then (k, vs ++ [p]) :: rest else (k, vs) :: adjAppend rest c p

/-- The adjacency mapping built from the dependency rows (consumer → list of
providers, truthy providers only). -/
def buildAdj (deps : List Dependency) : List (Int × List Int) :=
  deps.foldl
    (fun g dep =>
      match dep.provider_id with
      | some p => if p != 0 then adjAppend g dep.consumer_id p else g
      | none => g)
    []

/-- Reading `graph[node]` for iteration.  A missing key yields `[]` (the
defaultdict also inserts the empty bucket; in `find_path` that insertion is
never observed because nothing iterates over the dict, so a plain
default-`[]` lookup is an exact model there.  `get_circular_dependencies`
does observe the insertion and is modeled separately below). -/
def adjLookup (g : List (Int × List Int)) (n : Int) : List Int :=
  match g.find? (fun kv => kv.1 = n) with
  | some kv => kv.2
  | none => []

/-! ### Path Finder (`GraphService.find_path`) -/

/-- A BFS state: the pending queue of `(node, path-from-source)` pairs and
the visited set (modeled as a list; only membership is used). -/
structure BfsState where
  queue : List (Int × List Int)
  visited : List Int
  deriving Repr

/-- The inner `for neighbor in graph[current]` loop of the BFS: enqueue every
not-yet-visited neighbor with the extended path and mark it visited. -/
def enqueue (path : List Int) : List Int → List (Int × List Int) × List Int →
    List (Int × List Int) × List Int
  | [], acc => acc
  | n :: rest, (q, v) =>
    if n ∈ v then enqueue path rest (q, v)
    else enqueue path rest (q ++ [(n, path ++ [n])], v ++ [n])

/-- All ids appearing in adjacency buckets (used only for termination). -/
def adjTargets (g : List (Int × List Int)) : List Int :=
  (g.map Prod.snd).flatten

theorem adjLookup_subset_targets (g : List (Int × List Int)) (n : Int) :
    ∀ x ∈ adjLookup g n, x ∈ adjTargets g := by
  intro x hx
  unfold adjLookup at hx
  cases hfind : g.find? (fun kv => kv.1 = n) with
  | none => rw [hfind] at hx; simp at hx
  | some kv =>
    rw [hfind] at hx
    have hkv := List.find?_some hfind
    have hmem := List.mem_of_find?_eq_some hfind
    unfold adjTargets
    rw [List.mem_flatten]
    exact ⟨kv.2, List.mem_map_of_mem Prod.snd hmem, hx⟩

/-- Measure for BFS termination: queue length plus the number of adjacency
targets not yet visited.  Each loop iteration pops one entry and each enqueue
trades a fresh visited target for a queue entry, so this drops by exactly one
per iteration. -/
def bfsMeasure (g : List (Int × List Int)) (st : BfsState) : Nat :=
  st.queue.length + ((adjTargets g).toFinset.filter (fun x => x ∉ st.visited)).card

theorem enqueue_measure (g : List (Int × List Int)) (path : List Int) :
    ∀ (ns : List Int) (q : List (Int × List Int)) (v : List Int),
      (∀ x ∈ ns, x ∈ adjTargets g) →
      (enqueue path ns (q, v)).1.length +
        ((adjTargets g).toFinset.filter (fun x => x ∉ (enqueue path ns (q, v)).2)).card
      ≤ q.length + ((adjTargets g).toFinset.filter (fun x => x ∉ v)).card := by
  intro ns
  induction ns with
  | nil => intro q v _; simp [enqueue]
  | cons n rest ih =>
    intro q v hsub
    have hrest : ∀ x ∈ rest, x ∈ adjTargets g := fun x hx => hsub x (List.mem_cons_of_mem n hx)
    by_cases hv : n ∈ v
    · simp only [enqueue, if_pos hv]
      exact ih q v hrest
    · simp only [enqueue, if_neg hv]
      refine le_trans (ih _ _ hrest) ?_
      have hcardeq :
          ((adjTargets g).toFinset.filter (fun x => x ∉ v ++ [n])).card + 1 =
          ((adjTargets g).toFinset.filter (fun x => x ∉ v)).card := by
        have hn : n ∈ (adjTargets g).toFinset.filter (fun x => x ∉ v) := by
          rw [Finset.mem_filter]
          exact ⟨List.mem_toFinset.mpr (hsub n (List.mem_cons_self n rest)), hv⟩
        have hset : (adjTargets g).toFinset.filter (fun x => x ∉ v ++ [n]) =
            ((adjTargets g).toFinset.filter (fun x => x ∉ v)).erase n := by
          ext x
          simp only [Finset.mem_filter, Finset.mem_erase, List.mem_append,
            List.mem_singleton]
          constructor
          · rintro ⟨hxt, hx⟩
            push_neg at hx
            exact ⟨hx.2, hxt, hx.1⟩
          · rintro ⟨hxn, hxt, hxv⟩
            exact ⟨hxt, by push_neg; exact ⟨hxv, hxn⟩⟩
        rw [hset, Finset.card_erase_of_mem hn]
        have hpos : 0 < ((adjTargets g).toFinset.filter (fun x => x ∉ v)).card :=
          Finset.card_pos.mpr ⟨n, hn⟩
        omega
      simp only [List.length_append, List.length_singleton]
      omega

/-- The BFS loop of `find_path`: pop the front entry; if it is the target
return its path, otherwise enqueue the unvisited neighbors and continue.
Returns `none` when the queue empties (no path). -/
def bfsLoop (g : List (Int × List Int)) (to_id : Int) (st : BfsState) :
    Option (List Int) :=
  match hq : st.queue with
  | [] => none
  | (current, path) :: rest =>
    if current = to_id then some path
    else
      bfsLoop g to_id ⟨(enqueue path (adjLookup g current) (rest, st.visited)).1,
        (enqueue path (adjLookup g current) (rest, st.visited)).2⟩
termination_by bfsMeasure g st
decreasing_by
  unfold bfsMeasure
  dsimp only
  have h := enqueue_measure g path (adjLookup g current) rest st.visited
    (adjLookup_subset_targets g current)
  rw [hq]
  simp only [List.length_cons]
  omega

/-- The `{app.id: app.code for app in ...}` dictionary lookup of `find_path`
restricted to one id.  A dict comprehension lets later rows overwrite earlier
ones, hence the lookup on the reversed list. -/
def codeOf (apps : List Application) (i : Int) : Option String :=
  (apps.reverse.find? (fun a => a.id = i)).map Application.code

/-- `GraphService.find_path`.  The result is `Except`:
`.error` models an uncaught Python `KeyError` (raised when the BFS found a
path but the source or target id has no application row), `.ok none` is the
"no path" outcome, `.ok (some _)` a found path. -/
def find_path (apps : List Application) (deps : List Dependency)
    (from_app_id to_app_id : Int) : Except String (Option DependencyPath) :=
  let graph := buildAdj deps
  match bfsLoop graph to_app_id ⟨[(from_app_id, [from_app_id])], [from_app_id]⟩ with
  | none => .ok none
  | some path =>
    let path_codes := path.filterMap (codeOf apps)
    match codeOf apps from_app_id with
    | none => .error "KeyError: from_app_id"
    | some fc =>
      match codeOf apps to_app_id with
      | none => .error "KeyError: to_app_id"
      | some tc =>
        .ok (some
          { from_app := fc
            to_app := tc
            path := path_codes
            length := path.length - 1 })

/-! ### Tree Builder (`GraphService.get_app_dependencies_tree`)

The Python helper `build_tree(current_id, depth)` stops when
`depth > max_depth or current_id in visited`; `depth` starts at `0` and
grows by `1` per recursive call.  We carry the equivalent quantity
`fuel = max_depth + 1 - depth` instead of `depth`: `fuel = 0` exactly when
`depth > max_depth`, and each recursive call passes `fuel - 1`.  The shared
mutable `visited` set is threaded through explicitly. -/

/-- The `for dep in deps: if dep.provider_id: ...` loop of `build_tree`:
run `recur` (the recursion one level deeper) on each truthy provider,
attach `dependency_info` to each child that came back, drop the `None`
results, and thread the shared `visited` set through.  `recur` is always
`build_tree apps deps fuel` for the next-smaller fuel. -/
def build_children (recur : Int → List Int → Option DependencyTree × List Int) :
    List Dependency → List Int → List DependencyTree × List Int
  | [], visited => ([], visited)
  | dep :: rest, visited =>
    match dep.provider_id with
    | some p =>
      if p != 0 then
        match recur p visited with
        | (some child, visited2) =>
          let r := build_children recur rest visited2
          (setDepInfo child ⟨dep.name, dep.type, dep.criticality⟩ :: r.1, r.2)
        | (none, visited2) => build_children recur rest visited2
      else build_children recur rest visited
    | none => build_children recur rest visited

/-- `build_tree(current_id, depth)` with `fuel = max_depth + 1 - depth`.
Returns the optional subtree and the updated `visited` set.  Note the Python
order: `visited.add(current_id)` happens before the existence check of the
application row, so a missing row still marks the id visited. -/
def build_tree (apps : List Application) (deps : List Dependency) :
    Nat → Int → List Int → Option DependencyTree × List Int
  | 0, _, visited => (none, visited)
  | fuel + 1, current_id, visited =>
    if current_id ∈ visited then (none, visited)
    else
      match apps.find? (fun a => a.id = current_id) with
      | none => (none, visited ++ [current_id])
      | some curr_app =>
        let r := build_children (build_tree apps deps fuel)
          (deps.filter (fun d => d.consumer_id = current_id))
          (visited ++ [current_id])
        (some (.mk curr_app.id curr_app.code curr_app.display_name r.1 none), r.2)

/-- `GraphService.get_app_dependencies_tree`: `None` when the root id has no
application row, otherwise `build_tree(app_id, 0)` with a fresh `visited`.
`max_depth` is a non-negative depth bound (the HTTP route restricts it to
1..10); the initial fuel is `max_depth + 1 - 0`. -/
def get_app_dependencies_tree (apps : List Application) (deps : List Dependency)
    (app_id : Int) (max_depth : Nat) : Option DependencyTree :=
  match apps.find? (fun a => a.id = app_id) with
  | none => none
  | some _ => (build_tree apps deps (max_depth + 1) app_id []).1

mutual

/-- All `app_id`s of a tree, root first, in depth-first order. -/
def treeIds : DependencyTree → List Int
  | .mk i _ _ cs _ => i :: treeIdsList cs

/-- `treeIds` of a forest, concatenated in order. -/
def treeIdsList : List DependencyTree → List Int
  | [] => []
  | t :: ts => treeIds t ++ treeIdsList ts

end

/-- Number of nodes of a tree. -/
def treeSize (t : DependencyTree) : Nat :=
  (treeIds t).length

mutual

/-- Height of a tree in edges: 0 for a childless node. -/
def treeHeight : DependencyTree → Nat
  | .mk _ _ _ cs _ =>
    match cs with
    | [] => 0
    | _ => treeHeightList cs + 1

/-- Maximum height over a forest. -/
def treeHeightList : List DependencyTree → Nat
  | [] => 0
  | t :: ts => max (treeHeight t) (treeHeightList ts)

end

theorem treeIds_mk (i : Int) (c n : String) (cs : List DependencyTree)
    (d : Option DepInfo) : treeIds (.mk i c n cs d) = i :: treeIdsList cs := rfl

theorem treeIdsList_nil : treeIdsList [] = [] := rfl

theorem treeIdsList_cons (t : DependencyTree) (ts : List DependencyTree) :
    treeIdsList (t :: ts) = treeIds t ++ treeIdsList ts := rfl

theorem treeHeightList_nil : treeHeightList [] = 0 := rfl

theorem treeHeightList_cons (t : DependencyTree) (ts : List DependencyTree) :
    treeHeightList (t :: ts) = max (treeHeight t) (treeHeightList ts) := rfl

theorem treeHeight_mk_nil (i : Int) (c n : String) (d : Option DepInfo) :
    treeHeight (.mk i c n [] d) = 0 := rfl

theorem treeHeight_mk_cons (i : Int) (c n : String) (c0 : DependencyTree)
    (cs : List DependencyTree) (d : Option DepInfo) :
    treeHeight (.mk i c n (c0 :: cs) d) = treeHeightList (c0 :: cs) + 1 := rfl

/-! ### Cycle Detector (`GraphService.get_circular_dependencies`)

The Python code iterates `for node in graph.keys()` while the recursive
`dfs` reads `graph[neighbor]` on the same defaultdict — an access that
INSERTS an empty bucket when `neighbor` is not a key.  CPython's dict-keys
iterator compares the dict's size (captured at iterator creation) with the
current size on every `__next__`, including the final one, and raises
`RuntimeError: dictionary changed size during iteration` on a mismatch.
We model the mutable dict explicitly and the iteration over the ORIGINAL
key list with a size check before every step and after the last one.

`dfs` terminates because every nested call targets a node that was not yet
visited and immediately marks it visited, so the nesting depth is bounded by
the number of distinct node ids, which is at most `2 * len(deps)`; the
`fuel` argument starts above that bound and can never reach `0`. -/

/-- The whole mutable state of `get_circular_dependencies`. -/
structure DfsState where
  graph : List (Int × List Int)
  visited : List Int
  recStack : List Int
  path : List Int
  cycles : List (List Int)
  deriving Repr

/-- `graph[node]` on the defaultdict: return the bucket and the (possibly
extended) dict. -/
def lookupOrInsert (g : List (Int × List Int)) (n : Int) :
    List Int × List (Int × List Int) :=
  match g.find? (fun kv => kv.1 = n) with
  | some kv => (kv.2, g)
  | none => ([], g ++ [(n, [])])

/-- Python `set.add` on a set modeled as a duplicate-free list. -/
def setAdd (l : List Int) (x : Int) : List Int :=
  if x ∈ l then l else l ++ [x]

/-- The `for neighbor in graph[node]` loop of `dfs`.  `recur` is the
recursive `dfs` call (with one unit of fuel less).  When the loop finishes
without an early return, pop `path` and remove `node` from the recursion
stack; both removals are skipped by the early `return True` paths, exactly
as in the Python code. -/
def dfsNeighbors (recur : DfsState → Int → Option (DfsState × Bool)) (node : Int) :
    List Int → DfsState → Option (DfsState × Bool)
  | [], st =>
    some ({ st with path := st.path.dropLast, recStack := st.recStack.erase node },
      false)
  | n :: rest, st =>
    if n ∉ st.visited then
      match recur st n with
      | none => none
      | some (st2, true) => some (st2, true)
      | some (st2, false) => dfsNeighbors recur node rest st2
    else if n ∈ st.recStack then
      let cycle := st.path.drop (st.path.indexOf n) ++ [n]
      some ({ st with cycles := st.cycles ++ [cycle] }, true)
    else dfsNeighbors recur node rest st

/-- `dfs(node)`: mark `node` visited / on-stack / on-path, read
`graph[node]` (a defaultdict access that may insert an empty bucket), then
scan the neighbors.  Returns `none` only on fuel exhaustion, which cannot
happen for the fuel chosen by `cyclesOuter` (see above). -/
def dfsNode : Nat → DfsState → Int → Option (DfsState × Bool)
  | 0, _, _ => none
  | fuel + 1, st, node =>
    let st1 : DfsState :=
      { st with visited := setAdd st.visited node
                recStack := setAdd st.recStack node
                path := st.path ++ [node] }
    let r := lookupOrInsert st1.graph node
    dfsNeighbors (dfsNode fuel) node r.1 { st1 with graph := r.2 }

/-- The `for node in graph.keys()` loop.  `initSize` is the dict size when
the iterator was created; the size is re-checked before yielding each key
and once more before `StopIteration`. -/
def cyclesOuter (initSize : Nat) : List Int → DfsState →
    Except String (List (List Int))
  | [], st =>
    if st.graph.length ≠ initSize then
      .error "RuntimeError: dictionary changed size during iteration"
    else .ok st.cycles
  | k :: rest, st =>
    if st.graph.length ≠ initSize then
      .error "RuntimeError: dictionary changed size during iteration"
    else if k ∉ st.visited then
      match dfsNode (st.graph.length + (adjTargets st.graph).length + 1) st k with
      | none => .error "fuel exhausted (unreachable)"
      | some (st', _) => cyclesOuter initSize rest st'
    else cyclesOuter initSize rest st

/-- `GraphService.get_circular_dependencies`.  `.error` models an uncaught
Python exception (the RuntimeError of a defaultdict insertion during key
iteration). -/
def get_circular_dependencies (deps : List Dependency) :
    Except String (List (List Int)) :=
  let graph := buildAdj deps
  cyclesOuter graph.length (graph.map Prod.fst)
    { graph := graph, visited := [], recStack := [], path := [], cycles := [] }

/-- Membership of a directed edge `(a, b)` in the snapshot's edge set:
some dependency row with truthy provider has consumer `a` and provider `b`. -/
def hasEdge (deps : List Dependency) (a b : Int) : Bool :=
  deps.any (fun d => intTruthy d.provider_id &&
    decide (d.consumer_id = a) && decide (d.provider_id = some b))

/-- Every consecutive pair of the sequence is an edge of the snapshot. -/
def consecEdges (deps : List Dependency) : List Int → Bool
  | a :: b :: rest => hasEdge deps a b && consecEdges deps (b :: rest)
  | _ => true

/-- What the spec calls a cycle: a sequence of length at least two beginning
and ending at the same id in which every consecutive pair is an edge of the
snapshot. -/
def isCycle (deps : List Dependency) (c : List Int) : Bool :=
  decide (2 ≤ c.length) && (c.head? == c.getLast?) && consecEdges deps c

/-! ### Boundary layer (`app/api/v1/routes/graph.py`) -/

/-- Outcome of the `/graph/path` HTTP handler. -/
inductive PathRouteResult where
  | badRequest (detail : String)
  | ok (res : Option DependencyPath)
  | pyError (msg : String)
  deriving Repr, DecidableEq

/-- `find_dependency_path` of `app/api/v1/routes/graph.py`: equal endpoints
are rejected with HTTP 400 before `GraphService.find_path` is consulted. -/
def find_dependency_path (apps : List Application) (deps : List Dependency)
    (from_app to_app : Int) : PathRouteResult :=
  if from_app = to_app then
    .badRequest "Source and target applications must be different"
  else
    match find_path apps deps from_app to_app with
    | .error e => .pyError e
    | .ok r => .ok r

/-! ### Example rows used by concrete theorems -/

/-- A dependency row with the given id, consumer and provider (name, type
and criticality are fixed sample values). -/
def exDep (i c : Int) (p : Option Int) : Dependency :=
  ⟨i, c, p, "needs", "api", "high", none⟩

/-- An application row with the given id and code. -/
def exApp (i : Int) (cod : String) : Application :=
  ⟨i, cod, cod, cod, "core", "active", none, none, none, none, none, none⟩

/-! ### Lemmas about the Graph Builder -/

theorem depsCountStep_fst (m : Int → Nat × Nat) (dep : Dependency) (i : Int) :
    (depsCountStep m dep i).1 =
      if i = dep.consumer_id then (m i).1 + 1 else (m i).1 := by
  unfold depsCountStep
  cases hp : dep.provider_id with
  | none => simp [intTruthy, apply_ite Prod.fst]
  | some p =>
    by_cases hz : p = 0
    · simp [intTruthy, hz, apply_ite Prod.fst]
    · by_cases hip : i = p <;> simp [intTruthy, hz, hip, apply_ite Prod.fst]

theorem depsCountStep_snd (m : Int → Nat × Nat) (dep : Dependency) (i : Int) :
    (depsCountStep m dep i).2 =
      if intTruthy dep.provider_id && dep.provider_id == some i then
        (m i).2 + 1
      else (m i).2 := by
  unfold depsCountStep
  cases hp : dep.provider_id with
  | none => simp [intTruthy, apply_ite Prod.snd]
  | some p =>
    by_cases hz : p = 0
    · simp [intTruthy, hz, apply_ite Prod.snd]
    · by_cases hip : i = p
      · subst hip
        simp [intTruthy, hz, apply_ite Prod.snd]
      · have hpi : ¬p = i := fun h => hip h.symm
        simp [intTruthy, hz, apply_ite Prod.snd, if_neg hip, if_neg hpi]

theorem foldl_depsCountStep_fst (deps : List Dependency) :
    ∀ (m : Int → Nat × Nat) (i : Int),
      ((deps.foldl depsCountStep m) i).1 =
        (m i).1 + (deps.filter (fun d => d.consumer_id = i)).length := by
  induction deps with
  | nil => intro m i; simp
  | cons dep rest ih =>
    intro m i
    rw [List.foldl_cons, ih, depsCountStep_fst]
    by_cases h : dep.consumer_id = i
    · simp [List.filter_cons, h]
      omega
    · have h2 : ¬(i = dep.consumer_id) := fun hh => h hh.symm
      simp [List.filter_cons, h, h2]

theorem foldl_depsCountStep_snd (deps : List Dependency) :
    ∀ (m : Int → Nat × Nat) (i : Int),
      ((deps.foldl depsCountStep m) i).2 =
        (m i).2 +
          (deps.filter
            (fun d => intTruthy d.provider_id && d.provider_id == some i)).length := by
  induction deps with
  | nil => intro m i; simp
  | cons dep rest ih =>
    intro m i
    rw [List.foldl_cons, ih, depsCountStep_snd]
    by_cases h : (intTruthy dep.provider_id && dep.provider_id == some i) = true
    · simp [List.filter_cons, h]
      omega
    · simp [List.filter_cons, h]

theorem depsCount_fst (deps : List Dependency) (i : Int) :
    (depsCount deps i).1 = (deps.filter (fun d => d.consumer_id = i)).length := by
  unfold depsCount
  rw [foldl_depsCountStep_fst]
  simp

theorem depsCount_snd (deps : List Dependency) (i : Int) :
    (depsCount deps i).2 =
      (deps.filter
        (fun d => intTruthy d.provider_id && d.provider_id == some i)).length := by
  unfold depsCount
  rw [foldl_depsCountStep_snd]
  simp

theorem buildEdges_eq (deps : List Dependency) :
    buildEdges deps =
      (deps.filter (fun d => intTruthy d.provider_id)).map
        (fun d => mkEdge d (d.provider_id.getD 0)) := by
  induction deps with
  | nil => rfl
  | cons dep rest ih =>
    unfold buildEdges at ih ⊢
    cases hp : dep.provider_id with
    | none => simpa [List.filterMap_cons, List.filter_cons, intTruthy, hp] using ih
    | some p =>
      by_cases hz : p = 0
      · simpa [List.filterMap_cons, List.filter_cons, intTruthy, hp, hz] using ih
      · simpa [List.filterMap_cons, List.filter_cons, intTruthy, hp, hz] using ih

theorem sumVals_bump (m : List (String × Nat)) (k : String) :
    sumVals (bump m k) = sumVals m + 1 := by
  induction m with
  | nil => rfl
  | cons kv rest ih =>
    obtain ⟨k2, v⟩ := kv
    by_cases h : k2 = k
    · simp [bump, h, sumVals]
      omega
    · simp [bump, h, sumVals] at ih ⊢
      omega

theorem foldl_bump (f : Application → String) (apps : List Application) :
    ∀ m, sumVals (apps.foldl (fun m a => bump m (f a)) m) =
      sumVals m + apps.length := by
  induction apps with
  | nil => intro m; simp
  | cons a rest ih =>
    intro m
    rw [List.foldl_cons, ih, sumVals_bump]
    simp
    omega

theorem foldl_catStep (apps : List Application) :
    ∀ m, sumVals (apps.foldl catStep m) =
      sumVals m + (apps.filter (fun a => strTruthy a.category)).length := by
  induction apps with
  | nil => intro m; simp
  | cons a rest ih =>
    intro m
    rw [List.foldl_cons, ih]
    by_cases h : strTruthy a.category = true
    · cases hc : a.category with
      | none => rw [hc] at h; simp [strTruthy] at h
      | some c =>
        rw [List.filter_cons]
        simp only [h, if_pos]
        rw [catStep, if_pos h, hc, sumVals_bump]
        simp
        omega
    · rw [List.filter_cons]
      simp only [h]
      rw [catStep, if_neg h]
      simp [h]

/-! ### Lemmas about the Path Finder (BFS) -/

/-- A sequence is a path of the adjacency mapping when every consecutive
pair follows an edge. -/
def validPath (g : List (Int × List Int)) (p : List Int) : Prop :=
  p.Chain' (fun x y => y ∈ adjLookup g x)

/-- A directed path from `a` to `b`: nonempty, starts at `a`, ends at `b`,
and follows edges. -/
def pathFrom (g : List (Int × List Int)) (a b : Int) (p : List Int) : Prop :=
  p ≠ [] ∧ p.head? = some a ∧ p.getLast? = some b ∧ validPath g p

theorem pairwise_of_mem {α : Type} (R : α → α → Prop) :
    ∀ (l : List α), (∀ x ∈ l, ∀ y ∈ l, R x y) → l.Pairwise R := by
  intro l
  induction l with
  | nil => intro _; exact List.Pairwise.nil
  | cons a t ih =>
    intro h
    refine List.Pairwise.cons ?_ ?_
    · intro y hy
      exact h a (List.mem_cons_self a t) y (List.mem_cons_of_mem a hy)
    · exact ih (fun x hx y hy =>
        h x (List.mem_cons_of_mem a hx) y (List.mem_cons_of_mem a hy))

theorem filterMap_length_all {α β : Type} (f : α → Option β) :
    ∀ (l : List α), (∀ x ∈ l, (f x).isSome) →
      (l.filterMap f).length = l.length := by
  intro l
  induction l with
  | nil => intro _; rfl
  | cons a t ih =>
    intro h
    have ha := h a (List.mem_cons_self a t)
    obtain ⟨b, hb⟩ := Option.isSome_iff_exists.mp ha
    rw [List.filterMap_cons_some hb, List.length_cons, List.length_cons,
      ih (fun x hx => h x (List.mem_cons_of_mem a hx))]

/-- Characterisation of the enqueue loop: it appends one entry per fresh
neighbor (in order) and marks exactly those neighbors visited. -/
theorem enqueue_spec (path : List Int) :
    ∀ (ns : List Int) (q : List (Int × List Int)) (v : List Int),
      ∃ news : List (Int × List Int),
        enqueue path ns (q, v) = (q ++ news, v ++ news.map Prod.fst) ∧
        (∀ e ∈ news, ∃ n, n ∈ ns ∧ e = (n, path ++ [n]) ∧ n ∉ v) ∧
        (∀ n ∈ ns, n ∈ v ++ news.map Prod.fst) := by
  intro ns
  induction ns with
  | nil =>
    intro q v
    exact ⟨[], by simp [enqueue], by simp, by simp⟩
  | cons n rest ih =>
    intro q v
    by_cases hv : n ∈ v
    · obtain ⟨news, heq, hform, hns⟩ := ih q v
      refine ⟨news, ?_, ?_, ?_⟩
      · rw [enqueue, if_pos hv]
        exact heq
      · intro e he
        obtain ⟨m, hm, hem, hmv⟩ := hform e he
        exact ⟨m, List.mem_cons_of_mem n hm, hem, hmv⟩
      · intro m hm
        cases hm with
        | head => simp [hv]
        | tail _ hm => exact hns m hm
    · obtain ⟨news, heq, hform, hns⟩ := ih (q ++ [(n, path ++ [n])]) (v ++ [n])
      refine ⟨(n, path ++ [n]) :: news, ?_, ?_, ?_⟩
      · rw [enqueue, if_neg hv, heq]
        simp [List.append_assoc]
      · intro e he
        cases he with
        | head => exact ⟨n, List.mem_cons_self n rest, rfl, hv⟩
        | tail _ he =>
          obtain ⟨m, hm, hem, hmv⟩ := hform e he
          refine ⟨m, List.mem_cons_of_mem n hm, hem, ?_⟩
          intro hmem
          exact hmv (by simp [hmem])
      · intro m hm
        cases hm with
        | head => simp
        | tail _ hm =>
          have := hns m hm
          simp only [List.map_cons, List.append_assoc]
          simpa using this

/-- Unfolding: an empty queue yields "no path". -/
theorem bfsLoop_eq_nil (g : List (Int × List Int)) (tgt : Int) (v : List Int) :
    bfsLoop g tgt ⟨[], v⟩ = none := by
  rw [bfsLoop]

/-- Unfolding: one BFS step. -/
theorem bfsLoop_eq_cons (g : List (Int × List Int)) (tgt : Int) (c : Int)
    (pc : List Int) (rest : List (Int × List Int)) (v : List Int) :
    bfsLoop g tgt ⟨(c, pc) :: rest, v⟩ =
      if c = tgt then some pc
      else bfsLoop g tgt ⟨(enqueue pc (adjLookup g c) (rest, v)).1,
        (enqueue pc (adjLookup g c) (rest, v)).2⟩ := by
  rw [bfsLoop]

/-- The BFS loop invariant (relative to the adjacency mapping `g` and the
source node `src`).
`entries`: every queue entry carries a valid path from `src` to its node,
whose node is visited.
`minimal`: every queued path is a shortest path to its node.
`sorted`: queue entries have nondecreasing path lengths.
`within`: all queued path lengths are within one of each other.
`front`: any path to an unvisited node is strictly longer than the front
entry's path.
`processed`: a visited node either still has its entry in the queue or has
had all its neighbors visited.
`srcv`: the source is visited. -/
structure BfsInv (g : List (Int × List Int)) (src : Int) (st : BfsState) :
    Prop where
  entries : ∀ e ∈ st.queue, e.2 ≠ [] ∧ e.2.head? = some src ∧
    e.2.getLast? = some e.1 ∧ validPath g e.2 ∧ e.1 ∈ st.visited
  minimal : ∀ e ∈ st.queue, ∀ Q, pathFrom g src e.1 Q → e.2.length ≤ Q.length
  sorted : st.queue.Pairwise (fun e f => e.2.length ≤ f.2.length)
  within : ∀ e ∈ st.queue, ∀ f ∈ st.queue, e.2.length ≤ f.2.length + 1
  front : ∀ e, st.queue.head? = some e → ∀ z, z ∉ st.visited →
    ∀ Q, pathFrom g src z Q → e.2.length < Q.length
  processed : ∀ y ∈ st.visited, (∃ e ∈ st.queue, e.1 = y) ∨
    (∀ w ∈ adjLookup g y, w ∈ st.visited)
  srcv : src ∈ st.visited

/-- One BFS step strictly decreases the termination measure. -/
theorem bfs_step_measure (g : List (Int × List Int)) (c : Int) (pc : List Int)
    (rest : List (Int × List Int)) (v : List Int) :
    bfsMeasure g ⟨(enqueue pc (adjLookup g c) (rest, v)).1,
      (enqueue pc (adjLookup g c) (rest, v)).2⟩ <
    bfsMeasure g ⟨(c, pc) :: rest, v⟩ := by
  unfold bfsMeasure
  dsimp only
  have h := enqueue_measure g pc (adjLookup g c) rest v
    (adjLookup_subset_targets g c)
  simp only [List.length_cons]
  omega

/-- Key step of the shortest-path argument: if every queue entry is a
shortest path to its node, the queue is sorted, and processed nodes have all
neighbors visited, then any path from `src` to an unvisited node is strictly
longer than the front entry's path. -/
theorem bfs_front_aux (g : List (Int × List Int)) (src : Int)
    (q : List (Int × List Int)) (v : List Int)
    (hmin : ∀ e ∈ q, ∀ Q, pathFrom g src e.1 Q → e.2.length ≤ Q.length)
    (hsorted : q.Pairwise (fun e f => e.2.length ≤ f.2.length))
    (hproc : ∀ y ∈ v, (∃ e ∈ q, e.1 = y) ∨ (∀ w ∈ adjLookup g y, w ∈ v))
    (hsrc : src ∈ v) :
    ∀ fr, q.head? = some fr → ∀ (k : Nat) (Q : List Int) (z : Int),
      Q.length ≤ k → z ∉ v → pathFrom g src z Q → fr.2.length < Q.length := by
  intro fr hfr k
  induction k with
  | zero =>
    intro Q z hk hz hQ
    have := hQ.1
    cases Q with
    | nil => exact absurd rfl this
    | cons a t => simp at hk
  | succ k ih =>
    intro Q z hk hz hQ
    obtain ⟨hQne, hQhead, hQlast, hQvalid⟩ := hQ
    rcases List.eq_nil_or_concat Q with hnil | ⟨Q0, b, hcat⟩
    · exact absurd hnil hQne
    rw [List.concat_eq_append] at hcat
    subst hcat
    have hb : z = b := by
      rw [List.getLast?_concat] at hQlast
      exact (Option.some.inj hQlast).symm
    subst hb
    by_cases hQ0e : Q0 = []
    · subst hQ0e
      simp at hQhead
      subst hQhead
      exact absurd hsrc hz
    · have hQ0ne : Q0 ≠ [] := hQ0e
      obtain ⟨y, hy⟩ := Option.isSome_iff_exists.mp
        (List.getLast?_isSome.mpr hQ0ne)
      have hchain := (List.chain'_append.mp hQvalid)
      have hedge : z ∈ adjLookup g y := hchain.2.2 y hy z (by simp)
      have hQ0path : pathFrom g src y Q0 :=
        ⟨hQ0ne, by rw [← List.head?_append_of_ne_nil Q0 hQ0ne]; exact hQhead,
          hy, hchain.1⟩
      by_cases hyv : y ∈ v
      · rcases hproc y hyv with ⟨e2, he2, hey⟩ | hall
        · have h1 : e2.2.length ≤ Q0.length := by
            apply hmin e2 he2
            rw [hey]
            exact hQ0path
          have h2 : fr.2.length ≤ e2.2.length := by
            cases hq : q with
            | nil => rw [hq] at hfr; simp at hfr
            | cons f0 ft =>
              rw [hq] at hfr
              simp at hfr
              subst hfr
              rw [hq] at he2 hsorted
              cases he2 with
              | head => exact le_refl _
              | tail _ he2 => exact (List.pairwise_cons.mp hsorted).1 e2 he2
          have h3 : Q0.length < (Q0 ++ [z]).length := by simp
          omega
        · exact absurd (hall z hedge) hz
      · have hlen : Q0.length ≤ k := by
          have := hk
          simp only [List.length_append, List.length_singleton] at this
          omega
        have := ih Q0 y hlen hyv hQ0path
        have h3 : Q0.length < (Q0 ++ [z]).length := by simp
        omega

/-- One BFS step (pop the front, enqueue its fresh neighbors) preserves the
invariant. -/
theorem bfs_step_inv (g : List (Int × List Int)) (src c : Int) (pc : List Int)
    (rest : List (Int × List Int)) (v : List Int)
    (hct : BfsInv g src ⟨(c, pc) :: rest, v⟩) :
    BfsInv g src ⟨(enqueue pc (adjLookup g c) (rest, v)).1,
      (enqueue pc (adjLookup g c) (rest, v)).2⟩ := by
  obtain ⟨news, heq, hform, hns⟩ := enqueue_spec pc (adjLookup g c) rest v
  rw [heq]
  show BfsInv g src ⟨rest ++ news, v ++ news.map Prod.fst⟩
  obtain ⟨hpcne, hpchead, hpclast, hpcvalid, hcv⟩ :=
    hct.entries (c, pc) (List.mem_cons_self _ _)
  have hfront_le : ∀ e ∈ rest, pc.length ≤ e.2.length :=
    (List.pairwise_cons.mp hct.sorted).1
  have hsorted_rest := (List.pairwise_cons.mp hct.sorted).2
  have hwithin_pc : ∀ e ∈ (c, pc) :: rest, e.2.length ≤ pc.length + 1 :=
    fun e he => hct.within e he (c, pc) (List.mem_cons_self _ _)
  have hnews_len : ∀ e ∈ news, e.2.length = pc.length + 1 := by
    intro e he
    obtain ⟨n, _, hee, _⟩ := hform e he
    subst hee
    simp
  have hmin' : ∀ e ∈ rest ++ news, ∀ Q, pathFrom g src e.1 Q →
      e.2.length ≤ Q.length := by
    intro e he Q hQ
    rcases List.mem_append.mp he with he | he
    · exact hct.minimal e (List.mem_cons_of_mem _ he) Q hQ
    · obtain ⟨n, hn, hee, hnv⟩ := hform e he
      subst hee
      have := hct.front (c, pc) rfl n hnv Q hQ
      dsimp only at this
      simp only [List.length_append, List.length_singleton]
      omega
  have hsorted' : (rest ++ news).Pairwise
      (fun e f => e.2.length ≤ f.2.length) := by
    rw [List.pairwise_append]
    refine ⟨hsorted_rest, ?_, ?_⟩
    · apply pairwise_of_mem
      intro x hx y hy
      rw [hnews_len x hx, hnews_len y hy]
    · intro a ha b hb
      have h1 := hwithin_pc a (List.mem_cons_of_mem _ ha)
      rw [hnews_len b hb]
      omega
  have hproc' : ∀ y ∈ v ++ news.map Prod.fst,
      (∃ e ∈ rest ++ news, e.1 = y) ∨
      (∀ w ∈ adjLookup g y, w ∈ v ++ news.map Prod.fst) := by
    intro y hy
    rcases List.mem_append.mp hy with hy | hy
    · rcases hct.processed y hy with ⟨e, he, hey⟩ | hall
      · cases he with
        | head =>
          right
          intro w hw
          rw [← hey] at hw
          exact hns w hw
        | tail _ he =>
          left
          exact ⟨e, List.mem_append_left _ he, hey⟩
      · right
        intro w hw
        exact List.mem_append_left _ (hall w hw)
    · obtain ⟨e, he, hey⟩ := List.mem_map.mp hy
      left
      exact ⟨e, List.mem_append_right _ he, hey⟩
  have hsrcv' : src ∈ v ++ news.map Prod.fst := List.mem_append_left _ hct.srcv
  refine ⟨?_, hmin', hsorted', ?_, ?_, hproc', hsrcv'⟩
  · intro e he
    rcases List.mem_append.mp he with he | he
    · obtain ⟨h1, h2, h3, h4, h5⟩ := hct.entries e (List.mem_cons_of_mem _ he)
      exact ⟨h1, h2, h3, h4, List.mem_append_left _ h5⟩
    · obtain ⟨n, hn, hee, hnv⟩ := hform e he
      have he1 : e.1 ∈ news.map Prod.fst := List.mem_map_of_mem Prod.fst he
      subst hee
      refine ⟨by simp, ?_, List.getLast?_concat _, ?_, ?_⟩
      · rw [List.head?_append_of_ne_nil pc hpcne]
        exact hpchead
      · rw [validPath, List.chain'_append]
        refine ⟨hpcvalid, List.chain'_singleton n, ?_⟩
        intro x hx w hw
        rw [hpclast] at hx
        simp at hx hw
        rw [← hx, ← hw]
        exact hn
      · exact List.mem_append_right _ he1
  · intro e he f hf
    rcases List.mem_append.mp he with he | he <;>
      rcases List.mem_append.mp hf with hf | hf
    · exact hct.within e (List.mem_cons_of_mem _ he) f (List.mem_cons_of_mem _ hf)
    · have h1 := hwithin_pc e (List.mem_cons_of_mem _ he)
      rw [hnews_len f hf]
      omega
    · rw [hnews_len e he]
      have h2 := hfront_le f hf
      omega
    · rw [hnews_len e he, hnews_len f hf]
      omega
  · intro e he z hz Q hQ
    exact bfs_front_aux g src (rest ++ news) (v ++ news.map Prod.fst)
      hmin' hsorted' hproc' hsrcv' e he Q.length Q z (le_refl _) hz hQ

/-- The invariant holds at the initial BFS state. -/
theorem bfs_init_inv (g : List (Int × List Int)) (src : Int) :
    BfsInv g src ⟨[(src, [src])], [src]⟩ := by
  refine ⟨?_, ?_, ?_, ?_, ?_, ?_, ?_⟩
  · intro e he
    simp only [List.mem_singleton] at he
    subst he
    exact ⟨by simp, rfl, rfl, List.chain'_singleton src, by simp⟩
  · intro e he Q hQ
    simp only [List.mem_singleton] at he
    subst he
    cases Q with
    | nil => exact absurd rfl hQ.1
    | cons a t => simp
  · simp
  · intro e he f hf
    simp only [List.mem_singleton] at he hf
    subst he
    subst hf
    simp
  · intro e he z hz Q hQ
    simp only [List.head?_cons, Option.some.injEq] at he
    subst he
    obtain ⟨hne, hhead, hlast, -⟩ := hQ
    cases Q with
    | nil => exact absurd rfl hne
    | cons a t =>
      cases t with
      | nil =>
        simp at hhead hlast
        rw [hhead] at hlast
        rw [hlast] at hz
        simp at hz
      | cons b t2 => simp
  · intro y hy
    simp only [List.mem_singleton] at hy
    subst hy
    exact Or.inl ⟨(y, [y]), List.mem_singleton.mpr rfl, rfl⟩
  · simp

/-- Soundness and minimality of the BFS loop: from any state satisfying the
invariant, a returned path is a valid path from `src` to `tgt` of minimal
length. -/
theorem bfsLoop_spec (g : List (Int × List Int)) (src tgt : Int) :
    ∀ (N : Nat) (st : BfsState), bfsMeasure g st ≤ N → BfsInv g src st →
      ∀ p, bfsLoop g tgt st = some p →
      pathFrom g src tgt p ∧
        ∀ Q, pathFrom g src tgt Q → p.length ≤ Q.length := by
  intro N
  induction N with
  | zero =>
    intro st hm hinv p hrun
    obtain ⟨queue, visited⟩ := st
    cases queue with
    | nil =>
      rw [bfsLoop_eq_nil] at hrun
      exact absurd hrun (by simp)
    | cons e rest =>
      exfalso
      unfold bfsMeasure at hm
      simp at hm
  | succ N ih =>
    intro st hm hinv p hrun
    obtain ⟨queue, visited⟩ := st
    cases queue with
    | nil =>
      rw [bfsLoop_eq_nil] at hrun
      exact absurd hrun (by simp)
    | cons e rest =>
      obtain ⟨c, pc⟩ := e
      rw [bfsLoop_eq_cons] at hrun
      by_cases hctgt : c = tgt
      · rw [if_pos hctgt] at hrun
        have hp : pc = p := Option.some.inj hrun
        subst hp
        obtain ⟨h1, h2, h3, h4, -⟩ :=
          hinv.entries (c, pc) (List.mem_cons_self _ _)
        refine ⟨⟨h1, h2, by rw [h3, hctgt], h4⟩, ?_⟩
        intro Q hQ
        apply hinv.minimal (c, pc) (List.mem_cons_self _ _)
        rw [hctgt]
        exact hQ
      · rw [if_neg hctgt] at hrun
        have hless := bfs_step_measure g c pc rest visited
        exact ih _ (by omega) (bfs_step_inv g src c pc rest visited hinv) p hrun

/-! ### Lemmas about the Tree Builder -/

theorem treeIds_setDepInfo (t : DependencyTree) (info : DepInfo) :
    treeIds (setDepInfo t info) = treeIds t := by
  cases t
  rfl

theorem treeHeight_setDepInfo (t : DependencyTree) (info : DepInfo) :
    treeHeight (setDepInfo t info) = treeHeight t := by
  cases t
  rfl

theorem treeHeightList_lt (f : Nat) :
    ∀ l : List DependencyTree, (∀ c ∈ l, treeHeight c < f) → 0 < f →
      treeHeightList l < f := by
  intro l
  induction l with
  | nil => intro _ hf; simpa [treeHeightList_nil] using hf
  | cons c ts ih =>
    intro h hf
    rw [treeHeightList_cons]
    exact max_lt (h c (List.mem_cons_self c ts))
      (ih (fun x hx => h x (List.mem_cons_of_mem c hx)) hf)

theorem treeHeight_eq_zero (t : DependencyTree) (h : treeHeight t = 0) :
    t.children = [] := by
  obtain ⟨i, c, nm, cs, di⟩ := t
  cases cs with
  | nil => rfl
  | cons c0 cs0 => simp [treeHeight] at h

theorem build_children_all_falsy
    (recur : Int → List Int → Option DependencyTree × List Int) :
    ∀ (l : List Dependency) (visited : List Int),
      (∀ d ∈ l, intTruthy d.provider_id = false) →
      build_children recur l visited = ([], visited) := by
  intro l
  induction l with
  | nil => intro visited _; rfl
  | cons dep rest ih =>
    intro visited h
    have hd := h dep (List.mem_cons_self dep rest)
    have hrest := fun d hdm => h d (List.mem_cons_of_mem dep hdm)
    cases hp : dep.provider_id with
    | none => simp only [build_children, hp]; exact ih visited hrest
    | some p =>
      rw [hp] at hd
      have hz : p = 0 := by
        by_contra hz
        simp [intTruthy, hz] at hd
      subst hz
      simp only [build_children, hp]
      simpa using ih visited hrest

theorem build_children_props (apps : List Application) (deps : List Dependency)
    (f : Nat)
    (hA : ∀ (cid : Int) (visited : List Int),
      (∀ x ∈ visited, x ∈ (build_tree apps deps f cid visited).2) ∧
      (∀ t, (build_tree apps deps f cid visited).1 = some t →
        (treeIds t).Nodup ∧
        (∀ i ∈ treeIds t, i ∈ (build_tree apps deps f cid visited).2 ∧
          i ∉ visited ∧ i ∈ apps.map Application.id) ∧
        t.app_id = cid ∧ treeHeight t < f)) :
    ∀ (l : List Dependency) (visited : List Int),
      (∀ x ∈ visited, x ∈ (build_children (build_tree apps deps f) l visited).2) ∧
      (treeIdsList (build_children (build_tree apps deps f) l visited).1).Nodup ∧
      (∀ i ∈ treeIdsList (build_children (build_tree apps deps f) l visited).1,
        i ∈ (build_children (build_tree apps deps f) l visited).2 ∧
        i ∉ visited ∧ i ∈ apps.map Application.id) ∧
      (∀ c ∈ (build_children (build_tree apps deps f) l visited).1,
        treeHeight c < f) := by
  intro l
  induction l with
  | nil =>
    intro visited
    simp [build_children, treeIdsList_nil]
  | cons dep rest ih =>
    intro visited
    cases hp : dep.provider_id with
    | none =>
      simp only [build_children, hp]
      exact ih visited
    | some p =>
      by_cases hz : p = 0
      · subst hz
        simp only [build_children, hp]
        simpa using ih visited
      · have hbne : (p != 0) = true := by simp [hz]
        cases hbt : build_tree apps deps f p visited with
        | mk res v2 =>
          cases res with
          | none =>
            have hgrow : ∀ x ∈ visited, x ∈ v2 := by
              intro x hx
              have := (hA p visited).1 x hx
              rwa [hbt] at this
            have hrest := ih v2
            simp only [build_children, hp, hbne, if_true, hbt]
            refine ⟨fun x hx => hrest.1 x (hgrow x hx), hrest.2.1, ?_, hrest.2.2.2⟩
            intro i hi
            obtain ⟨h1, h2, h3⟩ := hrest.2.2.1 i hi
            exact ⟨h1, fun hiv => h2 (hgrow i hiv), h3⟩
          | some child =>
            have hAc := (hA p visited).2 child (by rw [hbt])
            obtain ⟨hnodup, hmem, _, hheight⟩ := hAc
            have hmem' : ∀ i ∈ treeIds child, i ∈ v2 ∧ i ∉ visited ∧
                i ∈ apps.map Application.id := by
              intro i hi
              obtain ⟨h1, h2, h3⟩ := hmem i hi
              rw [hbt] at h1
              exact ⟨h1, h2, h3⟩
            have hgrow : ∀ x ∈ visited, x ∈ v2 := by
              intro x hx
              have := (hA p visited).1 x hx
              rwa [hbt] at this
            have hrest := ih v2
            simp only [build_children, hp, hbne, if_true, hbt]
            constructor
            · intro x hx
              exact hrest.1 x (hgrow x hx)
            constructor
            · rw [treeIdsList_cons, treeIds_setDepInfo]
              rw [List.nodup_append]
              refine ⟨hnodup, hrest.2.1, ?_⟩
              intro a ha hb
              exact (hrest.2.2.1 a hb).2.1 (hmem' a ha).1
            constructor
            · intro i hi
              rw [treeIdsList_cons, treeIds_setDepInfo, List.mem_append] at hi
              cases hi with
              | inl hi =>
                obtain ⟨h1, h2, h3⟩ := hmem' i hi
                exact ⟨hrest.1 i h1, h2, h3⟩
              | inr hi =>
                obtain ⟨h1, h2, h3⟩ := hrest.2.2.1 i hi
                exact ⟨h1, fun hiv => h2 (hgrow i hiv), h3⟩
            · intro c hc
              cases hc with
              | head => rw [treeHeight_setDepInfo]; exact hheight
              | tail _ hc => exact hrest.2.2.2 c hc

theorem build_tree_props (apps : List Application) (deps : List Dependency) :
    ∀ (f : Nat) (cid : Int) (visited : List Int),
      (∀ x ∈ visited, x ∈ (build_tree apps deps f cid visited).2) ∧
      (∀ t, (build_tree apps deps f cid visited).1 = some t →
        (treeIds t).Nodup ∧
        (∀ i ∈ treeIds t, i ∈ (build_tree apps deps f cid visited).2 ∧
          i ∉ visited ∧ i ∈ apps.map Application.id) ∧
        t.app_id = cid ∧ treeHeight t < f) := by
  intro f
  induction f with
  | zero =>
    intro cid visited
    simp [build_tree]
  | succ f ih =>
    intro cid visited
    by_cases hv : cid ∈ visited
    · simp [build_tree, hv]
    · cases hfind : apps.find? (fun a => a.id = cid) with
      | none =>
        simp only [build_tree, if_neg hv, hfind]
        refine ⟨?_, ?_⟩
        · intro x hx
          simp [List.mem_append, hx]
        · intro t ht
          exact absurd ht (by simp)
      | some curr_app =>
        have hid : curr_app.id = cid := by
          have := List.find?_some hfind
          simpa using this
        have happ : curr_app ∈ apps := List.mem_of_find?_eq_some hfind
        have hB := build_children_props apps deps f ih
          (deps.filter (fun d => d.consumer_id = cid)) (visited ++ [cid])
        simp only [build_tree, if_neg hv, hfind]
        constructor
        · intro x hx
          exact hB.1 x (by simp [List.mem_append, hx])
        · intro t ht
          have ht2 : t = DependencyTree.mk curr_app.id curr_app.code
              curr_app.display_name
              (build_children (build_tree apps deps f)
                (deps.filter (fun d => d.consumer_id = cid))
                (visited ++ [cid])).1 none := (Option.some.inj ht).symm
          subst ht2
          have hcid_new : cid ∈ visited ++ [cid] := by simp
          refine ⟨?_, ?_, ?_, ?_⟩
          · rw [treeIds_mk, List.nodup_cons]
            refine ⟨?_, hB.2.1⟩
            intro hmem
            exact (hB.2.2.1 curr_app.id hmem).2.1 (by rw [hid]; exact hcid_new)
          · intro i hi
            rw [treeIds_mk] at hi
            cases hi with
            | head =>
              rw [hid]
              refine ⟨hB.1 cid hcid_new, hv, ?_⟩
              rw [List.mem_map]
              exact ⟨curr_app, happ, hid⟩
            | tail _ hi =>
              obtain ⟨h1, h2, h3⟩ := hB.2.2.1 i hi
              refine ⟨h1, ?_, h3⟩
              intro hiv
              exact h2 (by simp [List.mem_append, hiv])
          · exact hid
          · cases hcs : (build_children (build_tree apps deps f)
                (deps.filter (fun d => d.consumer_id = cid))
                (visited ++ [cid])).1 with
            | nil =>
              rw [treeHeight_mk_nil]
              omega
            | cons c0 cs0 =>
              rw [treeHeight_mk_cons]
              have hlt : treeHeightList (c0 :: cs0) < f := by
                apply treeHeightList_lt
                · intro c hc
                  rw [← hcs] at hc
                  exact hB.2.2.2 c hc
                · have := hB.2.2.2 c0 (by rw [hcs]; exact List.mem_cons_self c0 cs0)
                  omega
              omega

/-! ### Claims -/

/-- C10: in any tree returned by the tree builder, every node id occurs at
most once: a provider whose id was already visited anywhere earlier in the
traversal comes back as `None` from `build_tree` and is dropped from the
consumer's children entirely (`if child:`), not attached as an annotated
leaf. -/
theorem tree_ids_unique (apps : List Application) (deps : List Dependency)
    (root : Int) (md : Nat) (t : DependencyTree)
    (h : get_app_dependencies_tree apps deps root md = some t) :
    (treeIds t).Nodup := by
  unfold get_app_dependencies_tree at h
  cases hfind : apps.find? (fun a => a.id = root) with
  | none => rw [hfind] at h; exact absurd h (by simp)
  | some a =>
    rw [hfind] at h
    exact (((build_tree_props apps deps (md + 1) root []).2) t h).1

/-- Witness for `tree_ids_unique` on the diamond graph 1→2, 1→3, 2→4, 3→4:
node 4 appears only under node 2; the edge 3→4 re-converges on a visited id
and produces no second occurrence. -/
theorem tree_ids_unique_witness :
    (treeIds (DependencyTree.mk 1 "A" "A"
      [DependencyTree.mk 2 "B" "B"
        [DependencyTree.mk 4 "D" "D" [] (some ⟨"needs", "api", "high"⟩)]
        (some ⟨"needs", "api", "high"⟩),
       DependencyTree.mk 3 "C" "C" [] (some ⟨"needs", "api", "high"⟩)]
      none)).Nodup :=
  tree_ids_unique
    [exApp 1 "A", exApp 2 "B", exApp 3 "C", exApp 4 "D"]
    [exDep 1 1 (some 2), exDep 2 1 (some 3), exDep 3 2 (some 4), exDep 4 3 (some 4)]
    1 5 _ rfl

/-- C7: on the two-node cycle 1→2→1 with `maxDepth = 5` the tree builder
returns the finite tree "1 with child 2" (2 does not re-expand 1), and in
general every returned tree is finite with at most one node per application
row. -/
theorem tree_builder_total_on_cycles :
    (get_app_dependencies_tree [exApp 1 "A", exApp 2 "B"]
      [exDep 1 1 (some 2), exDep 2 2 (some 1)] 1 5 =
      some (.mk 1 "A" "A" [.mk 2 "B" "B" [] (some ⟨"needs", "api", "high"⟩)] none)) ∧
    ∀ (apps : List Application) (deps : List Dependency) (root : Int) (md : Nat)
      (t : DependencyTree),
      get_app_dependencies_tree apps deps root md = some t →
      treeSize t ≤ apps.length := by
  constructor
  · rfl
  · intro apps deps root md t h
    unfold get_app_dependencies_tree at h
    cases hfind : apps.find? (fun a => a.id = root) with
    | none => rw [hfind] at h; exact absurd h (by simp)
    | some a =>
      rw [hfind] at h
      obtain ⟨hnodup, hmem, -, -⟩ := ((build_tree_props apps deps (md + 1) root []).2) t h
      unfold treeSize
      have hsub : ∀ i ∈ treeIds t, i ∈ apps.map Application.id :=
        fun i hi => (hmem i hi).2.2
      calc (treeIds t).length = (treeIds t).toFinset.card :=
            (List.toFinset_card_of_nodup hnodup).symm
        _ ≤ (apps.map Application.id).toFinset.card :=
            Finset.card_le_card
              (fun x hx => List.mem_toFinset.mpr (hsub x (List.mem_toFinset.mp hx)))
        _ ≤ (apps.map Application.id).length := List.toFinset_card_le _
        _ = apps.length := by simp

/-- Witness for `tree_builder_total_on_cycles` (the size bound at the cyclic
snapshot of its first conjunct). -/
theorem tree_builder_total_on_cycles_witness :
    treeSize (DependencyTree.mk 1 "A" "A"
      [DependencyTree.mk 2 "B" "B" [] (some ⟨"needs", "api", "high"⟩)] none) ≤ 2 :=
  tree_builder_total_on_cycles.2 [exApp 1 "A", exApp 2 "B"]
    [exDep 1 1 (some 2), exDep 2 2 (some 1)] 1 5 _ rfl

/-- C8: no node of a returned tree lies deeper than `maxDepth` below the
root; with `maxDepth = 0` the returned tree is childless; and an existing
root none of whose dependency rows has a truthy provider yields a childless
tree node rather than an error. -/
theorem tree_depth_bounded (apps : List Application) (deps : List Dependency)
    (root : Int) (md : Nat) :
    (∀ t, get_app_dependencies_tree apps deps root md = some t →
      treeHeight t ≤ md) ∧
    (∀ t, get_app_dependencies_tree apps deps root 0 = some t →
      t.children = []) ∧
    (∀ a, apps.find? (fun x => x.id = root) = some a →
      (∀ d ∈ deps, d.consumer_id = root → intTruthy d.provider_id = false) →
      get_app_dependencies_tree apps deps root md =
        some (.mk a.id a.code a.display_name [] none)) := by
  refine ⟨?_, ?_, ?_⟩
  · intro t h
    unfold get_app_dependencies_tree at h
    cases hfind : apps.find? (fun a => a.id = root) with
    | none => rw [hfind] at h; exact absurd h (by simp)
    | some a =>
      rw [hfind] at h
      have := (((build_tree_props apps deps (md + 1) root []).2) t h).2.2.2
      omega
  · intro t h
    unfold get_app_dependencies_tree at h
    cases hfind : apps.find? (fun a => a.id = root) with
    | none => rw [hfind] at h; exact absurd h (by simp)
    | some a =>
      rw [hfind] at h
      have := (((build_tree_props apps deps (0 + 1) root []).2) t h).2.2.2
      exact treeHeight_eq_zero t (by omega)
  · intro a hfind hfalsy
    have hempty : build_children (build_tree apps deps md)
        (deps.filter (fun d => d.consumer_id = root)) [root] = ([], [root]) :=
      build_children_all_falsy _ _ _
        (fun d hd => hfalsy d (List.mem_of_mem_filter hd)
          (by simpa using List.of_mem_filter hd))
    unfold get_app_dependencies_tree
    rw [hfind]
    simp only [build_tree, List.not_mem_nil, if_false, hfind, List.nil_append,
      hempty]

/-- Witness for `tree_depth_bounded`: the depth bound and childlessness at
`maxDepth = 0` on the snapshot 1→2 rooted at 1, and the no-outgoing-edges
case on a snapshot whose only dependency row belongs to another consumer. -/
theorem tree_depth_bounded_witness :
    treeHeight (DependencyTree.mk 1 "A" "A" [] none) ≤ 0 ∧
    (DependencyTree.mk 1 "A" "A" [] none).children = [] ∧
    get_app_dependencies_tree [exApp 1 "A"] [exDep 9 2 (some 1)] 1 3 =
      some (.mk 1 "A" "A" [] none) := by
  refine ⟨?_, ?_, ?_⟩
  · exact (tree_depth_bounded [exApp 1 "A", exApp 2 "B"]
      [exDep 1 1 (some 2)] 1 0).1 _ rfl
  · exact (tree_depth_bounded [exApp 1 "A", exApp 2 "B"]
      [exDep 1 1 (some 2)] 1 7).2.1 _ rfl
  · exact (tree_depth_bounded [exApp 1 "A"] [exDep 9 2 (some 1)] 1 3).2.2
      (exApp 1 "A") rfl (by decide)

/-- C2 counterexample: the snapshot has edges 1→2 and 2→3 but only
applications 1 ("a") and 3 ("c"); `find_path 1 3` succeeds with the id path
[1, 2, 3], drops the unknown id 2 from the code sequence, and reports
`length = 2`, which is not the code-sequence length minus one. -/
theorem find_path_length_code_mismatch :
    find_path [exApp 1 "a", exApp 3 "c"]
      [exDep 1 1 (some 2), exDep 2 2 (some 3)] 1 3 =
      .ok (some ⟨"a", "c", ["a", "c"], 2⟩) ∧
    (2 : Nat) ≠ (["a", "c"] : List String).length - 1 := by
  constructor
  · simp [find_path, buildAdj, adjAppend, exDep, bfsLoop, enqueue, adjLookup,
      codeOf, exApp]
  · decide

/-- C2 (amended): whenever `find_path` returns a path, the underlying BFS id
path starts at `fromId`, ends at `toId`, and has minimal hop count among all
directed paths of the edge set; the returned code sequence starts at
`fromId`'s code and ends at `toId`'s code; the reported `length` is the hop
count of the id path, which equals the code-sequence length minus one
whenever every id on the id path has an application row (ids without a row
are silently dropped from the code sequence). -/
theorem find_path_spec (apps : List Application) (deps : List Dependency)
    (a b : Int) (dp : DependencyPath) (hab : a ≠ b)
    (h : find_path apps deps a b = .ok (some dp)) :
    ∃ p : List Int,
      pathFrom (buildAdj deps) a b p ∧
      dp.path = p.filterMap (codeOf apps) ∧
      dp.length = p.length - 1 ∧
      (∃ fc, codeOf apps a = some fc ∧ dp.from_app = fc ∧
        dp.path.head? = some fc) ∧
      (∃ tc, codeOf apps b = some tc ∧ dp.to_app = tc ∧
        dp.path.getLast? = some tc) ∧
      ((∀ i ∈ p, (codeOf apps i).isSome) →
        dp.length = dp.path.length - 1) ∧
      (∀ Q, pathFrom (buildAdj deps) a b Q → dp.length ≤ Q.length - 1) := by
  unfold find_path at h
  simp only [] at h
  cases hbfs : bfsLoop (buildAdj deps) b ⟨[(a, [a])], [a]⟩ with
  | none =>
    rw [hbfs] at h
    simp at h
  | some p =>
    rw [hbfs] at h
    obtain ⟨hpathp, hminp⟩ := bfsLoop_spec (buildAdj deps) a b
      (bfsMeasure (buildAdj deps) ⟨[(a, [a])], [a]⟩) _ (le_refl _)
      (bfs_init_inv _ a) p hbfs
    cases hca : codeOf apps a with
    | none =>
      rw [hca] at h
      simp at h
    | some fc =>
      rw [hca] at h
      cases hcb : codeOf apps b with
      | none =>
        rw [hcb] at h
        simp at h
      | some tc =>
        rw [hcb] at h
        simp only [Except.ok.injEq, Option.some.injEq] at h
        subst h
        refine ⟨p, hpathp, rfl, rfl, ⟨fc, rfl, rfl, ?_⟩, ⟨tc, rfl, rfl, ?_⟩,
          ?_, ?_⟩
        · obtain ⟨hne, hhead, -, -⟩ := hpathp
          cases p with
          | nil => exact absurd rfl hne
          | cons x t =>
            simp only [List.head?_cons, Option.some.injEq] at hhead
            subst hhead
            show ((x :: t).filterMap (codeOf apps)).head? = some fc
            rw [List.filterMap_cons_some hca]
            rfl
        · obtain ⟨hne, -, hlast, -⟩ := hpathp
          rcases List.eq_nil_or_concat p with hnil | ⟨p0, z, hcat⟩
          · exact absurd hnil hne
          · rw [List.concat_eq_append] at hcat
            subst hcat
            rw [List.getLast?_concat] at hlast
            have hz : z = b := Option.some.inj hlast
            subst hz
            show ((p0 ++ [z]).filterMap (codeOf apps)).getLast? = some tc
            rw [List.filterMap_append]
            have hone : ([z] : List Int).filterMap (codeOf apps) = [tc] := by
              rw [List.filterMap_cons_some hcb]
              rfl
            rw [hone, List.getLast?_concat]
        · intro hall
          show p.length - 1 = (p.filterMap (codeOf apps)).length - 1
          rw [filterMap_length_all (codeOf apps) p hall]
        · intro Q hQ
          have := hminp Q hQ
          show p.length - 1 ≤ Q.length - 1
          omega

/-- Witness for `find_path_spec` on the one-edge snapshot 1→2 with both
application rows present. -/
theorem find_path_spec_witness :
    ∃ p : List Int,
      pathFrom (buildAdj [exDep 1 1 (some 2)]) 1 2 p ∧
      (DependencyPath.mk "a" "b" ["a", "b"] 1).path =
        p.filterMap (codeOf [exApp 1 "a", exApp 2 "b"]) ∧
      (DependencyPath.mk "a" "b" ["a", "b"] 1).length = p.length - 1 ∧
      (∃ fc, codeOf [exApp 1 "a", exApp 2 "b"] 1 = some fc ∧
        (DependencyPath.mk "a" "b" ["a", "b"] 1).from_app = fc ∧
        (DependencyPath.mk "a" "b" ["a", "b"] 1).path.head? = some fc) ∧
      (∃ tc, codeOf [exApp 1 "a", exApp 2 "b"] 2 = some tc ∧
        (DependencyPath.mk "a" "b" ["a", "b"] 1).to_app = tc ∧
        (DependencyPath.mk "a" "b" ["a", "b"] 1).path.getLast? = some tc) ∧
      ((∀ i ∈ p, (codeOf [exApp 1 "a", exApp 2 "b"] i).isSome) →
        (DependencyPath.mk "a" "b" ["a", "b"] 1).length =
          (DependencyPath.mk "a" "b" ["a", "b"] 1).path.length - 1) ∧
      (∀ Q, pathFrom (buildAdj [exDep 1 1 (some 2)]) 1 2 Q →
        (DependencyPath.mk "a" "b" ["a", "b"] 1).length ≤ Q.length - 1) :=
  find_path_spec [exApp 1 "a", exApp 2 "b"] [exDep 1 1 (some 2)] 1 2
    (DependencyPath.mk "a" "b" ["a", "b"] 1) (by decide)
    (by simp [find_path, buildAdj, adjAppend, exDep, bfsLoop, enqueue,
      adjLookup, codeOf, exApp])

/-- C4 counterexample: with an application of id 0 and a dependency whose
`provider_id` is 0 (non-null), the node's `dependents_count` is 0 although
exactly one dependency record has `provider_id` equal to the node's id:
`if dep.provider_id:` treats 0 like null. -/
theorem node_counts_zero_provider_counterexample :
    ((get_full_graph [exApp 0 "z"] [exDep 1 1 (some 0)] (fun _ => 0)).nodes.map
      (fun n => (n.id, n.dependents_count))) = [(0, 0)] ∧
    (([exDep 1 1 (some 0)] : List Dependency).filter
      (fun d => d.provider_id == some (0 : Int))).length = 1 := by
  exact ⟨rfl, rfl⟩

/-- C4 (amended): for every node of the built graph, `dependencies_count`
counts all dependency records with this consumer (null providers included),
and `dependents_count` counts the records whose `provider_id` is truthy
(non-null and non-zero) and equals the node's id — which is exactly the
records with `provider_id == node.id` whenever the node's id is non-zero. -/
theorem node_counts_spec (apps : List Application) (deps : List Dependency)
    (rc : Int → Nat) (n : GraphNode)
    (h : n ∈ (get_full_graph apps deps rc).nodes) :
    n.dependencies_count = (deps.filter (fun d => d.consumer_id = n.id)).length ∧
    n.dependents_count =
      (deps.filter
        (fun d => intTruthy d.provider_id && d.provider_id == some n.id)).length ∧
    (n.id ≠ 0 → n.dependents_count =
      (deps.filter (fun d => d.provider_id == some n.id)).length) := by
  have hn : (get_full_graph apps deps rc).nodes = apps.map (mkNode deps rc) := rfl
  rw [hn, List.mem_map] at h
  obtain ⟨app, _, rfl⟩ := h
  refine ⟨depsCount_fst deps app.id, depsCount_snd deps app.id, ?_⟩
  intro hne
  have hid : (mkNode deps rc app).id = app.id := rfl
  have hdc : (mkNode deps rc app).dependents_count = (depsCount deps app.id).2 := rfl
  rw [hid] at hne ⊢
  rw [hdc, depsCount_snd deps app.id]
  congr 1
  apply List.filter_congr
  intro d _
  cases hp : d.provider_id with
  | none => simp [intTruthy]
  | some p =>
    by_cases hpi : p = app.id
    · subst hpi
      simp [intTruthy, hne]
    · simp [intTruthy, hpi]

/-- Witness for `node_counts_spec` at a concrete snapshot: one application
(id 1) consumed by dependency 2→1 and consuming the null-provider
dependency 1→null. -/
theorem node_counts_spec_witness :
    (mkNode [exDep 1 2 (some 1), exDep 2 1 none] (fun _ => 0)
      (exApp 1 "a")).dependencies_count =
      (([exDep 1 2 (some 1), exDep 2 1 none] : List Dependency).filter
        (fun d => d.consumer_id =
          (mkNode [exDep 1 2 (some 1), exDep 2 1 none] (fun _ => 0)
            (exApp 1 "a")).id)).length ∧
    (mkNode [exDep 1 2 (some 1), exDep 2 1 none] (fun _ => 0)
      (exApp 1 "a")).dependents_count =
      (([exDep 1 2 (some 1), exDep 2 1 none] : List Dependency).filter
        (fun d => intTruthy d.provider_id && d.provider_id ==
          some (mkNode [exDep 1 2 (some 1), exDep 2 1 none] (fun _ => 0)
            (exApp 1 "a")).id)).length ∧
    ((mkNode [exDep 1 2 (some 1), exDep 2 1 none] (fun _ => 0)
      (exApp 1 "a")).id ≠ 0 →
      (mkNode [exDep 1 2 (some 1), exDep 2 1 none] (fun _ => 0)
        (exApp 1 "a")).dependents_count =
        (([exDep 1 2 (some 1), exDep 2 1 none] : List Dependency).filter
          (fun d => d.provider_id ==
            some (mkNode [exDep 1 2 (some 1), exDep 2 1 none] (fun _ => 0)
              (exApp 1 "a")).id)).length) :=
  node_counts_spec [exApp 1 "a"] [exDep 1 2 (some 1), exDep 2 1 none]
    (fun _ => 0) _ (by decide)

/-- C5 counterexample: a dependency record whose `provider_id` is 0 has a
non-null provider id but produces no edge (`if dep.provider_id:` is false
for 0), so the edge count is below the count of non-null-provider rows. -/
theorem edges_zero_provider_counterexample :
    (get_full_graph [] [exDep 1 1 (some 0)] (fun _ => 0)).edges.length = 0 ∧
    (([exDep 1 1 (some 0)] : List Dependency).filter
      (fun d => d.provider_id.isSome)).length = 1 := by
  exact ⟨rfl, rfl⟩

/-- C5 (amended): the snapshot's edge list is exactly one edge per
dependency record with a truthy (non-null, non-zero) `provider_id`, in
input order, carrying the record's id, consumer as source and provider as
target; hence the edge count equals the count of such records. -/
theorem edges_spec (apps : List Application) (deps : List Dependency)
    (rc : Int → Nat) :
    (get_full_graph apps deps rc).edges =
      (deps.filter (fun d => intTruthy d.provider_id)).map
        (fun d => mkEdge d (d.provider_id.getD 0)) ∧
    (get_full_graph apps deps rc).edges.length =
      (deps.filter (fun d => intTruthy d.provider_id)).length := by
  have he : (get_full_graph apps deps rc).edges = buildEdges deps := rfl
  rw [he, buildEdges_eq]
  exact ⟨rfl, by simp⟩

/-- C6: the `by_type` and `by_status` statistics each sum to the number of
nodes, and `by_category` sums to the number of nodes with a truthy (non-null,
non-empty) category. -/
theorem stats_partitions_total (apps : List Application) (deps : List Dependency)
    (rc : Int → Nat) :
    sumVals (get_full_graph apps deps rc).stats.by_type =
      (get_full_graph apps deps rc).nodes.length ∧
    sumVals (get_full_graph apps deps rc).stats.by_status =
      (get_full_graph apps deps rc).nodes.length ∧
    sumVals (get_full_graph apps deps rc).stats.by_category =
      ((get_full_graph apps deps rc).nodes.filter
        (fun n => strTruthy n.category)).length := by
  have h1 : (get_full_graph apps deps rc).stats.by_type =
      apps.foldl (fun m app => bump m app.type) [] := rfl
  have h2 : (get_full_graph apps deps rc).stats.by_status =
      apps.foldl (fun m app => bump m app.status) [] := rfl
  have h3 : (get_full_graph apps deps rc).stats.by_category =
      apps.foldl catStep [] := rfl
  have hn : (get_full_graph apps deps rc).nodes = apps.map (mkNode deps rc) := rfl
  rw [h1, h2, h3, hn, foldl_bump (fun a => a.type), foldl_bump (fun a => a.status),
    foldl_catStep]
  refine ⟨by simp [sumVals], by simp [sumVals], ?_⟩
  have hfm : (apps.map (mkNode deps rc)).filter (fun n => strTruthy n.category) =
      (apps.filter ((fun n => strTruthy n.category) ∘ (mkNode deps rc))).map
        (mkNode deps rc) := by
    rw [List.filter_map]
  rw [hfm, List.length_map]
  simp [sumVals]
  congr 1

/-- C1: the claim that every sequence returned by the cycle detector is a
directed cycle of the edge set fails on the code.  On the snapshot with
dependencies 1→2, 2→1 and 3→1, the first DFS root finds the real cycle
[1, 2, 1] and returns early without unwinding `path`/`rec_stack`; the DFS
from root 3 then sees the stale entries, records [1, 2, 3, 1] — which is
not a cycle (there is no edge 2→3) — and the function returns both. -/
theorem cycle_detector_returns_non_cycle :
    get_circular_dependencies [exDep 1 1 (some 2), exDep 2 2 (some 1), exDep 3 3 (some 1)] =
      .ok [[1, 2, 1], [1, 2, 3, 1]] ∧
    isCycle [exDep 1 1 (some 2), exDep 2 2 (some 1), exDep 3 3 (some 1)] [1, 2, 3, 1] = false := by
  exact ⟨rfl, rfl⟩

/-- C3: the claim that the traversals never raise fails on the code.
`get_circular_dependencies` on the single dependency 1→2 raises
`RuntimeError: dictionary changed size during iteration` (the recursive
`dfs` reads `graph[2]` on the defaultdict, inserting a key while the outer
loop iterates `graph.keys()`), and `find_path` on a snapshot whose edges
mention ids with no application row raises a `KeyError` after BFS succeeds.
`get_app_dependencies_tree` is indeed total (it is a total function here by
construction). -/
theorem traversals_can_raise :
    get_circular_dependencies [exDep 1 1 (some 2)] =
      .error "RuntimeError: dictionary changed size during iteration" ∧
    find_path [] [exDep 1 1 (some 2), exDep 2 2 (some 3)] 1 3 =
      .error "KeyError: from_app_id" := by
  refine ⟨rfl, ?_⟩
  simp [find_path, buildAdj, adjAppend, exDep, bfsLoop, enqueue, adjLookup, codeOf]

/-- C9: a path query whose source equals its target is rejected by the HTTP
handler with a 400 response before `GraphService.find_path` is consulted. -/
theorem path_route_rejects_equal_endpoints
    (apps : List Application) (deps : List Dependency) (x : Int) :
    find_dependency_path apps deps x x =
      .badRequest "Source and target applications must be different" := by
  simp [find_dependency_path]

end OvuSam
